import Mathlib

/-!
Verification of the ingestion/reconciliation pipeline of the
`context_chat_backend` repository against its natural-language
specification.

The definitions below are a shallow embedding of the Python sources:

* `src/context_chat_backend/utils.py` (`to_int`),
* `src/context_chat_backend/chain/ingest/injest.py`
  (`_allowed_file`, `_filter_documents`, `_sources_to_documents`,
  `_bucket_by_type`, `_process_sources`, `embed_sources`),
* `src/context_chat_backend/download.py`
  (`_model_exists`, `_download_model`, `_extract_n_save`).

External collaborators that are not part of the repository's sources
(the mimetype allowlist module, the document decoder, the splitter
registry and the Weaviate vector-store client) are passed in as
parameters or modelled from the specification, as marked in the
individual doc comments.
-/

namespace CCB

/-! ### Python scalar values and `to_int` (utils.py) -/

/-- A Python value that can appear in a metadata slot: either a string
(header values) or an integer (values coming back from the store). -/
inductive PyVal : Type
  | str : String → PyVal
  | int : Int → PyVal
deriving DecidableEq, Repr

/-- Python whitespace stripped by `int(str)` and matched by the regex
class from the `re` module for ASCII text: space, tab, newline,
carriage return, form feed, vertical tab. -/
def isPyWs (c : Char) : Bool :=
  c = ' ' || c = '\t' || c = '\n' || c = '\r' || c = '\x0c' || c = '\x0b'

/-- Digits of a decimal literal, as accepted by Python `int(str)` after
stripping; `none` when the character list is empty or contains a
non-digit (which makes `int` raise `ValueError`). -/
def digitsToNat (cs : List Char) : Option Nat :=
  if cs = [] then none
  else if cs.all Char.isDigit then
    some (cs.foldl (fun a c => a * 10 + (c.toNat - 48)) 0)
  else none

/-- Strip leading and trailing Python whitespace, as `int(str)` does. -/
def pyStrip (cs : List Char) : List Char :=
  ((cs.dropWhile isPyWs).reverse.dropWhile isPyWs).reverse

/-- Python `int(s)` on a string: optional sign, decimal digits,
surrounding whitespace ignored; `none` models `ValueError`. -/
def pyParseInt (s : String) : Option Int :=
  match pyStrip s.toList with
  | '-' :: ds => (digitsToNat ds).map (fun n => -(n : Int))
  | '+' :: ds => (digitsToNat ds).map (fun n => (n : Int))
  | ds => (digitsToNat ds).map (fun n => (n : Int))

/-- `utils.to_int(value, default=0)`: `None` and unparseable strings map
to the default 0; integers pass through; strings are parsed with
Python `int`. -/
def to_int : Option PyVal → Int
  | none => 0
  | some (PyVal.int n) => n
  | some (PyVal.str s) =>
    match pyParseInt s with
    | some n => n
    | none => 0

/-! ### Sources, documents and metadata (injest.py data model) -/

/-- An `UploadFile` as consumed by `injest.py`: the filename plus the
header fields the code reads (`userId`, `title`, `type`, `modified`,
`provider`).  A missing header is `none`. -/
structure UploadFile : Type where
  filename : Option String
  userId : Option String
  title : Option String
  type : Option String
  modified : Option String
  provider : Option String
deriving DecidableEq, Repr

/-- The metadata dict attached to a langchain `Document` by
`_sources_to_documents`: the five keys the code writes. -/
structure DocMeta : Type where
  source : Option String
  title : Option String
  type : Option String
  modified : Option PyVal
  provider : Option String
deriving DecidableEq, Repr

/-- A langchain `Document`: page content plus metadata. -/
structure Document : Type where
  page_content : String
  metadata : DocMeta
deriving DecidableEq, Repr

/-- Python `str.startswith`, computed on the character lists (kernel
reducible, unlike `String.startsWith`). -/
def strStartsWith (s pre : String) : Bool :=
  pre.toList.isPrefixOf s.toList

/-- Python `str.endswith`, computed on the character lists. -/
def strEndsWith (s suf : String) : Bool :=
  suf.toList.isSuffixOf s.toList

/-- `_allowed_file(file)`: membership of `file.headers.get('type',
default='')` in `SUPPORTED_MIMETYPES`.  The mimetype list lives in
`mimetype_list.py`, which is not part of the given sources, so the
allowlist is a parameter (the spec describes it only as a fixed set of
supported type strings). -/
def allowed_file (allow : List String) (f : UploadFile) : Bool :=
  (f.type.getD "") ∈ allow

/-- The pre-filter predicate of `embed_sources`: a source is kept when
`(source.filename is not None and not source.filename.startswith('file: '))
or _allowed_file(source)`. -/
def admitSource (allow : List String) (f : UploadFile) : Bool :=
  (match f.filename with
   | some fn => !(strStartsWith fn "file: ")
   | none => false)
  || allowed_file allow f

/-! ### Ordered dictionaries

Python dicts preserve insertion order; the embeddings below mirror the
two update patterns the code uses: overwrite-value (`d[k] = v`) and
append-to-list (`d[k].append(v)` / `d[k] = [v]`). -/

/-- `d[k] = v` on an insertion-ordered dict: overwrite in place, or
append a new key at the end. -/
def upsert : List (String × Option PyVal) → String → Option PyVal →
    List (String × Option PyVal)
  | [], k, v => [(k, v)]
  | (k', v') :: rest, k, v =>
    if k' = k then (k, v) :: rest else (k', v') :: upsert rest k v

/-- `d[k].append(v)` when `d.get(k) is not None`, else `d[k] = [v]`,
on an insertion-ordered dict with list values. -/
def dictAppend {κ α : Type} [DecidableEq κ] :
    List (κ × List α) → κ → α → List (κ × List α)
  | [], k, v => [(k, [v])]
  | (k', vs) :: rest, k, v =>
    if k' = k then (k, vs ++ [v]) :: rest else (k', vs) :: dictAppend rest k v

/-- Ordered-dict lookup (`d.get(k)`). -/
def lookupVal {α : Type} : List (String × α) → String → Option α
  | [], _ => none
  | (k', v) :: rest, k => if k' = k then some v else lookupVal rest k

/-- `input_sources.get(source)` where the dict's values are already
optional (a missing key and a `None` value both read back as `None`). -/
def pyGet (m : List (String × Option PyVal)) (k : String) : Option PyVal :=
  (lookupVal m k).join

/-! ### The vector store (modelled from the spec)

The Weaviate client classes are not part of the given sources; the
store is modelled from the spec's interface section: a per-tenant set
of committed records with a store-assigned id, queried by source path
(`get_records_by_source` returns one `{id, modified}` entry per source
path), deleted by id batches, and extended by `client.add(chunks)`
which returns one id per successfully written chunk. -/

/-- Modelled from the spec: a VectorRecord — an entry already
committed to the store, with a store-assigned id, the chunk's
metadata (carrying source path and modified epoch) and its content. -/
structure VRecord : Type where
  rid : Nat
  meta : DocMeta
  content : String
deriving DecidableEq, Repr

/-- Modelled from the spec: one tenant's slice of the store — its
committed records plus a fresh-id counter for store-assigned ids. -/
structure TenantStore : Type where
  recs : List VRecord
  nextId : Nat
deriving DecidableEq, Repr

/-- Modelled from the spec: the record the store query reports for a
given source path (the first committed record carrying it). -/
def findBySource (recs : List VRecord) (src : String) : Option VRecord :=
  recs.find? (fun r => r.meta.source = some src)

/-- Modelled from the spec:
`get_records_by_source(tenant, 'source', source_paths)` returns a map
from each queried source path that has a record to that record's
`{id, modified}`. -/
def getObjectsFromMetadata (recs : List VRecord) (keys : List String) :
    List (String × Nat × Option PyVal) :=
  keys.filterMap (fun k =>
    (findBySource recs k).map (fun r => (k, r.rid, r.meta.modified)))

/-! ### The reconciler `_filter_documents` (injest.py) -/

/-- One iteration of the `input_sources` loop of `_filter_documents`:
skip a document whose metadata has no `source`, otherwise store
`source ↦ modified` (later duplicates overwrite the value). -/
def inputStep (m : List (String × Option PyVal)) (d : Document) :
    List (String × Option PyVal) :=
  match d.metadata.source with
  | none => m
  | some s => upsert m s d.metadata.modified

/-- The `input_sources` dict of `_filter_documents`. -/
def buildInputSources (docs : List Document) : List (String × Option PyVal) :=
  docs.foldl inputStep []

/-- The `existing_objects` map of `_filter_documents`: the store query
over the input-source keys. -/
def existingOf (recs : List VRecord) (docs : List Document) :
    List (String × Nat × Option PyVal) :=
  getObjectsFromMetadata recs ((buildInputSources docs).map (fun e => e.1))

/-- The `to_delete` dict of `_filter_documents`: an existing record is
marked for deletion when the incoming `modified` (coerced by `to_int`)
is strictly greater than the stored one. -/
def toDeleteOf (recs : List VRecord) (docs : List Document) :
    List (String × Nat) :=
  (existingOf recs docs).filterMap (fun e =>
    if to_int (pyGet (buildInputSources docs) e.1) > to_int e.2.2
    then some (e.1, e.2.1) else none)

/-- The `new_sources` set of `_filter_documents`: input sources not in
the existing map, plus the sources marked for deletion. -/
def newSourcesOf (recs : List VRecord) (docs : List Document) : List String :=
  ((buildInputSources docs).map (fun e => e.1)).filter
    (fun s => !decide (s ∈ (existingOf recs docs).map (fun e => e.1)))
  ++ (toDeleteOf recs docs).map (fun e => e.1)

/-- `_filter_documents(user_id, vectordb, documents)` acting on one
tenant's store slice.  Returns the surviving documents, the records
remaining after the batch delete of the marked ids, and the list of
ids that were passed to `delete_by_ids`. -/
def filterDocuments (recs : List VRecord) (docs : List Document) :
    List Document × List VRecord × List Nat :=
  let deletedIds := (toDeleteOf recs docs).map (fun e => e.2)
  let survivors := docs.filter (fun d =>
    match d.metadata.source with
    | some s => decide (s ∈ newSourcesOf recs docs)
    | none => false)
  (survivors, recs.filter (fun r => !decide (r.rid ∈ deletedIds)), deletedIds)

/-! ### The content normalizer (the two `re.sub` calls of
`_process_sources`)

`re.sub(r'((\r)?\n){3,}', '\n\n', content)` followed by
`re.sub(r'(\s){5,}', r'\g<1>', content)`, embedded as leftmost-match
greedy scans over the character list. -/

/-- Greedy match of `((\r)?\n)*` at the head of a character list:
the number of repetitions consumed and the remaining suffix. -/
def nlRun : List Char → Nat × List Char
  | '\r' :: '\n' :: rest => ((nlRun rest).1 + 1, (nlRun rest).2)
  | '\n' :: rest => ((nlRun rest).1 + 1, (nlRun rest).2)
  | l => (0, l)

theorem nlRun_len : ∀ l : List Char, (nlRun l).1 + (nlRun l).2.length ≤ l.length := by
  intro l
  induction l using nlRun.induct with
  | case1 rest ih => simp only [nlRun, List.length_cons]; omega
  | case2 rest ih => simp only [nlRun, List.length_cons]; omega
  | case3 l h1 h2 => rw [nlRun.eq_def]; split <;> simp_all

/-- Fuel-indexed scanner for `re.sub(r'((\r)?\n){3,}', '\n\n', ·)`:
scan left to right; at a position where three or more `(\r)?\n`
repetitions match greedily, emit two newlines and continue after the
match, otherwise keep the character.  The fuel only forces structural
recursion; any fuel of at least the list's length gives the scan
itself (`collapseNlF_irrel`). -/
def collapseNlF : Nat → List Char → List Char
  | _, [] => []
  | 0, l => l
  | fuel + 1, c :: cs =>
    if 3 ≤ (nlRun (c :: cs)).1 then
      '\n' :: '\n' :: collapseNlF fuel (nlRun (c :: cs)).2
    else
      c :: collapseNlF fuel cs

/-- `re.sub(r'((\r)?\n){3,}', '\n\n', ·)` on a character list. -/
def collapseNl (l : List Char) : List Char :=
  collapseNlF l.length l

theorem collapseNlF_irrel : ∀ (f1 f2 : Nat) (l : List Char),
    l.length ≤ f1 → l.length ≤ f2 → collapseNlF f1 l = collapseNlF f2 l := by
  intro f1
  induction f1 with
  | zero =>
    intro f2 l h1 h2
    have : l = [] := List.length_eq_zero.mp (Nat.le_zero.mp h1)
    subst this
    cases f2 <;> rfl
  | succ g ih =>
    intro f2 l h1 h2
    cases l with
    | nil => cases f2 <;> rfl
    | cons c cs =>
      cases f2 with
      | zero => simp at h2
      | succ g2 =>
        simp only [collapseNlF]
        simp only [List.length_cons] at h1 h2
        by_cases h : 3 ≤ (nlRun (c :: cs)).1
        · have hb := nlRun_len (c :: cs)
          simp only [List.length_cons] at hb
          simp only [h, if_true]
          have := ih g2 (nlRun (c :: cs)).2 (by omega) (by omega)
          rw [this]
        · simp only [h, if_false]
          have := ih g2 cs (by omega) (by omega)
          rw [this]

theorem collapseNl_cons (c : Char) (cs : List Char) :
    collapseNl (c :: cs) =
      if 3 ≤ (nlRun (c :: cs)).1 then
        '\n' :: '\n' :: collapseNl (nlRun (c :: cs)).2
      else
        c :: collapseNl cs := by
  unfold collapseNl
  simp only [List.length_cons, collapseNlF]
  by_cases h : 3 ≤ (nlRun (c :: cs)).1
  · have hb := nlRun_len (c :: cs)
    simp only [List.length_cons] at hb
    simp only [h, if_true]
    rw [collapseNlF_irrel cs.length (nlRun (c :: cs)).2.length (nlRun (c :: cs)).2
      (by omega) (by omega)]
  · simp only [h, if_false]

/-- Fuel-indexed scanner for `re.sub(r'(\s){5,}', r'\g<1>', ·)`: a
maximal run of five or more whitespace characters (Python `\s`, which
includes newlines) is replaced by its last character (the final
capture of group 1); shorter runs and other characters are kept. -/
def collapseWsF : Nat → List Char → List Char
  | _, [] => []
  | 0, l => l
  | fuel + 1, c :: cs =>
    if isPyWs c then
      let run := c :: cs.takeWhile isPyWs
      if 5 ≤ run.length then
        run.getLastD ' ' :: collapseWsF fuel (cs.dropWhile isPyWs)
      else
        run ++ collapseWsF fuel (cs.dropWhile isPyWs)
    else
      c :: collapseWsF fuel cs

/-- `re.sub(r'(\s){5,}', r'\g<1>', ·)` on a character list. -/
def collapseWs (l : List Char) : List Char :=
  collapseWsF l.length l

theorem collapseWsF_irrel : ∀ (f1 f2 : Nat) (l : List Char),
    l.length ≤ f1 → l.length ≤ f2 → collapseWsF f1 l = collapseWsF f2 l := by
  intro f1
  induction f1 with
  | zero =>
    intro f2 l h1 h2
    have : l = [] := List.length_eq_zero.mp (Nat.le_zero.mp h1)
    subst this
    cases f2 <;> rfl
  | succ g ih =>
    intro f2 l h1 h2
    cases l with
    | nil => cases f2 <;> rfl
    | cons c cs =>
      cases f2 with
      | zero => simp at h2
      | succ g2 =>
        simp only [collapseWsF]
        simp only [List.length_cons] at h1 h2
        have hd := (List.dropWhile_sublist (l := cs) isPyWs).length_le
        by_cases h : isPyWs c
        · simp only [h, if_true]
          rw [ih g2 (cs.dropWhile isPyWs) (by omega) (by omega)]
        · have := ih g2 cs (by omega) (by omega)
          simp [h, this]

theorem collapseWs_cons (c : Char) (cs : List Char) :
    collapseWs (c :: cs) =
      if isPyWs c then
        if 5 ≤ (c :: cs.takeWhile isPyWs).length then
          (c :: cs.takeWhile isPyWs).getLastD ' '
            :: collapseWs (cs.dropWhile isPyWs)
        else
          (c :: cs.takeWhile isPyWs) ++ collapseWs (cs.dropWhile isPyWs)
      else
        c :: collapseWs cs := by
  unfold collapseWs
  simp only [List.length_cons, collapseWsF]
  have hd := (List.dropWhile_sublist (l := cs) isPyWs).length_le
  by_cases h : isPyWs c
  · simp only [h, if_true]
    rw [collapseWsF_irrel cs.length (cs.dropWhile isPyWs).length (cs.dropWhile isPyWs)
      (by omega) (by omega)]
  · simp [h]

/-- The full per-chunk normalization of `_process_sources`: first the
newline collapse, then the whitespace collapse. -/
def normContent (s : String) : String :=
  String.mk (collapseWs (collapseNl s.toList))

/-- The in-place `doc.page_content = ...` update: only the content
changes. -/
def normalizeDoc (d : Document) : Document :=
  { d with page_content := normContent d.page_content }

/-! ### Grouping and bucketing (injest.py) -/

/-- `_sources_to_documents(sources)`: skip sources with no `userId`
header; decode each remaining source through the external decoder
(given as the parameter `decode`, since `doc_loader.py` is not part of
the given sources) and skip `None`/empty results; build the metadata
dict from the declared header fields and append the document to its
tenant's list, tenants appearing in first-encounter order. -/
def sourcesToDocuments (decode : UploadFile → Option String)
    (sources : List UploadFile) : List (String × List Document) :=
  sources.foldl
    (fun m s =>
      match s.userId with
      | none => m
      | some uid =>
        match decode s with
        | none => m
        | some content =>
          if content = "" then m
          else
            dictAppend m uid
              { page_content := content
                metadata :=
                  { source := s.filename
                    title := s.title
                    type := s.type
                    modified := s.modified.map PyVal.str
                    provider := s.provider } })
    []

/-- `_bucket_by_type(documents)`: group by the `type` metadata field,
buckets in first-encounter order. -/
def bucketByType (docs : List Document) :
    List (Option String × List Document) :=
  docs.foldl (fun m d => dictAppend m d.metadata.type d) []

/-- The splitter loop of `_process_sources`: for each type bucket,
invoke the external splitter (parameter `split`, since
`doc_splitter.py` is not part of the given sources) and extend the
result list. -/
def splitAll (split : Option String → List Document → List Document)
    (buckets : List (Option String × List Document)) : List Document :=
  buckets.foldl (fun acc b => acc ++ split b.1 b.2) []

/-! ### Per-tenant processing and the orchestrator (injest.py) -/

/-- A store call issued by the pipeline: a batch delete with its id
list, or a write with the exact documents passed to
`client.add_documents`. -/
inductive Op : Type
  | del : List Nat → Op
  | add : List Document → Op
deriving DecidableEq, Repr

/-- Modelled from the spec: committing chunks assigns consecutive
store ids starting at the tenant's fresh-id counter. -/
def mkRecords : Nat → List Document → List VRecord
  | _, [] => []
  | i, d :: ds => ⟨i, d.metadata, d.page_content⟩ :: mkRecords (i + 1) ds

/-- The whole store, as seen by `_process_sources`: per-tenant slices,
plus the external behaviours of the client (whether
`get_user_client(tenant)` returns a client, and how many ids a write
of `n` documents returns — `n` itself on full success). -/
structure VectorDB : Type where
  tenants : List (String × TenantStore)
  clientOk : String → Bool
  addCount : String → Nat → Nat

/-- The tenant's slice of the store (a fresh empty slice when the
tenant has no records yet). -/
def getTenant (db : VectorDB) (t : String) : TenantStore :=
  (lookupVal db.tenants t).getD ⟨[], 0⟩

/-- Write back one tenant's slice. -/
def setStore : List (String × TenantStore) → String → TenantStore →
    List (String × TenantStore)
  | [], t, st => [(t, st)]
  | (t', st') :: rest, t, st =>
    if t' = t then (t, st) :: rest else (t', st') :: setStore rest t st

/-- Write back one tenant's slice into the store. -/
def setTenant (db : VectorDB) (t : String) (st : TenantStore) : VectorDB :=
  { db with tenants := setStore db.tenants t st }

/-- The body of the per-tenant loop of `_process_sources`:
reconcile (which always issues the batch delete), skip the tenant when
no documents survive, bucket, split, normalize, drop empty chunks,
skip when nothing is left, then resolve the client — a `none` result
(`clientOk = false`) reproduces the `return False` early exit,
reported here as outcome `none`; otherwise write and compare the
returned id count.  Returns the tenant's store slice after the call,
the tenant's outcome (`none` = whole-call abort), and the store calls
issued. -/
def processTenant (split : Option String → List Document → List Document)
    (clientOk : Bool) (addCount : Nat → Nat)
    (st : TenantStore) (documents : List Document) :
    TenantStore × Option Bool × List Op :=
  let fd := filterDocuments st.recs documents
  let st1 : TenantStore := ⟨fd.2.1, st.nextId⟩
  if fd.1 = [] then (st1, some true, [Op.del fd.2.2])
  else
    let chunks := (splitAll split (bucketByType fd.1)).map normalizeDoc
    let kept := chunks.filter (fun d => d.page_content ≠ "")
    if kept = [] then (st1, some true, [Op.del fd.2.2])
    else if clientOk then
      let n := addCount kept.length
      (⟨st1.recs ++ mkRecords st1.nextId (kept.take n), st1.nextId + n⟩,
       some (decide (kept.length = n)),
       [Op.del fd.2.2, Op.add kept])
    else (st1, none, [Op.del fd.2.2])

/-- The tenant loop of `_process_sources`: accumulate `success &= ok`
across tenants; a `none` outcome returns `False` for the whole call
immediately, skipping the remaining tenants. -/
def goTenants (split : Option String → List Document → List Document) :
    VectorDB → List (String × List Document) → Bool →
    Bool × VectorDB × List (String × Op)
  | db, [], acc => (acc, db, [])
  | db, (t, docs) :: rest, acc =>
    let r := processTenant split (db.clientOk t) (db.addCount t)
      (getTenant db t) docs
    let db' := setTenant db t r.1
    let tlog := r.2.2.map (fun o => (t, o))
    match r.2.1 with
    | none => (false, db', tlog)
    | some ok =>
      let res := goTenants split db' rest (acc && ok)
      (res.1, res.2.1, tlog ++ res.2.2)

/-- `_process_sources(vectordb, sources)`: group by tenant, return
`True` straight away when the grouping is empty, otherwise run the
tenant loop.  Also returns the final store and the log of store calls
issued. -/
def processSources (decode : UploadFile → Option String)
    (split : Option String → List Document → List Document)
    (db : VectorDB) (sources : List UploadFile) :
    Bool × VectorDB × List (String × Op) :=
  let dd := sourcesToDocuments decode sources
  if dd = [] then (true, db, [])
  else goTenants split db dd true

/-- `embed_sources(vectordb, sources)`: pre-filter the sources, then
process them. -/
def embed_sources (allow : List String)
    (decode : UploadFile → Option String)
    (split : Option String → List Document → List Document)
    (db : VectorDB) (sources : List UploadFile) :
    Bool × VectorDB × List (String × Op) :=
  processSources decode split db (sources.filter (admitSource allow))

/-! ### Model provisioning (download.py)

The file system is modelled as the set (list) of existing paths; the
network and the contents of downloaded archives are parameters.  Only
`OSError`s raised by the environment are outside the model (the code
maps them all to a logged `False`/raise). -/

/-- `_BASE_URL` with the default download URI. -/
def BASE_URL : String :=
  "https://download.nextcloud.com/server/apps/context_chat_backend/"

/-- `_DEFAULT_EXT`. -/
def DEFAULT_EXT : String := ".tar.gz"

/-- `_KNOWN_EXTENSIONS` (note: no leading dots, exactly as in the
source). -/
def KNOWN_EXTENSIONS : List String :=
  ["gguf", "h5", "pt", "bin", "json", "txt", "pkl", "pickle",
   "safetensors", "tar.gz", "tar.bz2", "tar.xz", "zip"]

/-- `_KNOWN_ARCHIVES`. -/
def KNOWN_ARCHIVES : List String :=
  [".tar.gz", ".tar.bz2", ".tar.xz", ".zip"]

/-- `_model_config`: pinned (extracted name, archive extension,
sha256) triples. -/
def model_config (name : String) : Option (String × String × String) :=
  if name = "hkunlp/instructor-base" then
    some ("hkunlp_instructor-base", ".tar.gz",
      "19751ec112564f2c568b96a794dd4a16f335ee42b2535a890b577fc5137531eb")
  else if name = "dolphin-2.2.1-mistral-7b.Q5_K_M.gguf" then
    some ("dolphin-2.2.1-mistral-7b.Q5_K_M.gguf", "",
      "591a9b807bfa6dba9a5aed1775563e4364d7b7b3b714fc1f9e427fa0e2bf6ace")
  else none

/-- `pathlib.Path(a, b)` rendered with `as_posix()`: an empty second
component is dropped, an absolute second component replaces the
first. -/
def pathJoin (a b : String) : String :=
  if b = "" then a
  else if strStartsWith b "/" then b
  else a ++ "/" ++ b

/-- `os.path.basename`. -/
def basename (s : String) : String :=
  (s.splitOn "/").getLastD s

/-- `re.sub(r'^.*' + sep, '', s)`: the suffix of `s` after the last
occurrence of `sep`, or `s` unchanged when `sep` does not occur. -/
def suffixAfterLast (sep s : String) : String :=
  (s.splitOn sep).getLastD s

/-- `_model_exists(model_name_or_path)`: the path itself exists, or it
exists under the models directory, or its configured extracted name
exists under the models directory. -/
def model_exists (fs : List String) (dir name : String) : Bool :=
  decide (name ∈ fs) || decide (pathJoin dir name ∈ fs) ||
  (match model_config name with
   | some cfg => decide (pathJoin dir cfg.1 ∈ fs)
   | none => false)

/-- `_extract_n_save(model_name, filepath)`: archives are extracted
into the models directory (the created paths are given by the
`extractOut` parameter) and the archive file removed; plain files are
renamed into the models directory. -/
def extract_n_save (extractOut : String → List String) (dir : String)
    (fs : List String) (model_name filepath : String) : Bool × List String :=
  if ¬ filepath ∈ fs then (false, fs)
  else if KNOWN_ARCHIVES.any (fun e => strEndsWith filepath e) then
    (true, extractOut filepath ++ fs.erase filepath)
  else
    (true, pathJoin dir (suffixAfterLast (dir ++ "/") model_name)
      :: fs.erase filepath)

/-- `_download_model(model_name_or_path)`: reject an empty name,
return `True` straight away when the model already exists, otherwise
derive the archive name, open the target file, download (`netStatus`
gives the HTTP status per url), verify the pinned sha256 digest when
the model is configured (`netDigest` gives the downloaded body's
digest), and extract/rename. -/
def download_model (netStatus : String → Nat) (netDigest : String → String)
    (extractOut : String → List String) (dir : String)
    (fs : List String) (name : String) : Bool × List String :=
  if name = "" then (false, fs)
  else if model_exists fs dir name then (true, fs)
  else
    let model_name :=
      if strStartsWith name "/" then basename name
      else suffixAfterLast (dir ++ "/") name
    let model_file :=
      match model_config model_name with
      | some cfg => cfg.1 ++ cfg.2.1
      | none =>
        if KNOWN_EXTENSIONS.any (fun e => strEndsWith model_name e)
        then model_name
        else model_name ++ DEFAULT_EXT
    let url := BASE_URL ++ model_file
    let filepath := pathJoin dir model_file
    let fs1 := List.insert filepath fs
    if netStatus url ≥ 400 then (false, fs1)
    else
      match model_config model_name with
      | some cfg =>
        if netDigest url = cfg.2.2 then
          extract_n_save extractOut dir fs1 model_name filepath
        else (false, fs1)
      | none => extract_n_save extractOut dir fs1 model_name filepath

/-! ## Claim C8 — `to_int` coercion -/

/-- C8 counterexample: `to_int` coerces the string "-5" to the
negative integer -5, so the coercion does not always return a
non-negative integer. -/
theorem c8_counterexample :
    to_int (some (PyVal.str "-5")) = -5 ∧
    ¬ (0 ≤ to_int (some (PyVal.str "-5"))) := by
  decide

/-- C8 (amended): `to_int` returns the parsed integer value of its
argument, which may be negative; a missing (null) value or a string
that fails to parse as an integer yields the default 0, and integer
inputs pass through unchanged. -/
theorem c8_to_int_spec :
    to_int none = 0 ∧
    (∀ n : Int, to_int (some (PyVal.int n)) = n) ∧
    (∀ s : String, pyParseInt s = none → to_int (some (PyVal.str s)) = 0) ∧
    (∀ (s : String) (n : Int), pyParseInt s = some n →
      to_int (some (PyVal.str s)) = n) := by
  refine ⟨rfl, fun n => rfl, fun s h => ?_, fun s n h => ?_⟩ <;> simp [to_int, h]

/-- C8 witness: the amended statement at the unparseable string "abc"
and at "-5". -/
theorem c8_to_int_spec_witness :
    to_int (some (PyVal.str "abc")) = 0 ∧ to_int (some (PyVal.str "-5")) = -5 :=
  ⟨c8_to_int_spec.2.2.1 "abc" (by decide),
   c8_to_int_spec.2.2.2 "-5" (-5) (by decide)⟩

/-! ## Claim C3 — the pre-filter of `embed_sources` -/

/-- The source refuting claim C3: no filename, a type outside the
allowlist. -/
def c3Source : UploadFile :=
  ⟨none, none, none, some "application/pdf", none, none⟩

/-- C3 counterexample: a source with absent filename and a type
outside the allowlist is excluded by the pre-filter, although the
claim admits every source whose filename is absent. -/
theorem c3_counterexample :
    c3Source.filename = none ∧
    ¬ ((c3Source.type.getD "") ∈ ["text/plain"]) ∧
    admitSource ["text/plain"] c3Source = false := by
  decide

/-- C3 (amended): a source is admitted past the pre-filter if and only
if its filename is present and does not start with the virtual-file
marker prefix 'file: ', or its declared type is in the
supported-mimetype allowlist.  In particular a source with filename
'file: secret.exe' and a non-allowlisted type is excluded, the same
filename with an allowlisted type is included, and a source with no
filename is admitted only when its type is allowlisted. -/
theorem c3_admit_iff (allow : List String) (f : UploadFile) :
    admitSource allow f = true ↔
      ((∃ fn, f.filename = some fn ∧ ¬ strStartsWith fn "file: ") ∨
       (f.type.getD "") ∈ allow) := by
  unfold admitSource allowed_file
  cases hf : f.filename with
  | none => simp [hf]
  | some fn => simp [hf]

/-! ## Claim C9 — idempotence of `_download_model` -/

/-- C9 counterexample: with the models directory itself present on
disk, `_model_exists('')` is true (`Path(dir, '')` is `dir`), yet
`_download_model('')` returns false rather than true. -/
theorem c9_counterexample :
    model_exists ["persistent_storage/model_files"]
      "persistent_storage/model_files" "" = true ∧
    download_model (fun _ => 200) (fun _ => "") (fun _ => [])
      "persistent_storage/model_files" ["persistent_storage/model_files"] ""
      = (false, ["persistent_storage/model_files"]) := by
  decide

/-- C9 (amended): for every NONEMPTY model name or path, if the model
already exists on disk (at the given path, under the models directory,
or under its configured extracted name), `_download_model` returns
true immediately and performs no download, extraction, or other
file-system modification. -/
theorem c9_download_idempotent (netStatus : String → Nat)
    (netDigest : String → String) (extractOut : String → List String)
    (dir : String) (fs : List String) (name : String)
    (h1 : name ≠ "") (h2 : model_exists fs dir name = true) :
    download_model netStatus netDigest extractOut dir fs name = (true, fs) := by
  unfold download_model
  simp [h1, h2]

/-- C9 witness: a model present under the models directory is skipped
with an unchanged file system. -/
theorem c9_download_idempotent_witness :
    download_model (fun _ => 200) (fun _ => "") (fun _ => [])
      "models" ["models/x.gguf"] "x.gguf" = (true, ["models/x.gguf"]) :=
  c9_download_idempotent _ _ _ _ _ _ (by decide) (by decide)

/-! ## Claim C10 — normalization is a frame on metadata and order -/

/-- C10: the normalization pass changes at most `page_content`: the
metadata of every chunk is unchanged (position by position), the list
keeps its length, and the chunks surviving the empty-content filter
appear in the same relative order as before. -/
theorem c10_normalize_frame (l : List Document) :
    (l.map normalizeDoc).map (fun d => d.metadata) = l.map (fun d => d.metadata) ∧
    (l.map normalizeDoc).length = l.length ∧
    ((l.map normalizeDoc).filter
      (fun d => d.page_content ≠ "")).Sublist (l.map normalizeDoc) := by
  refine ⟨?_, by simp, List.filter_sublist _⟩
  simp [List.map_map, normalizeDoc, Function.comp]

/-! ## Claim C6 — the whitespace-collapse rule -/

theorem takeWhile_append_of_all {α : Type} {p : α → Bool} :
    ∀ (run post : List α), (∀ c ∈ run, p c = true) →
    (∀ c, post.head? = some c → p c = false) →
    (run ++ post).takeWhile p = run ∧ (run ++ post).dropWhile p = post := by
  intro run
  induction run with
  | nil =>
    intro post _ hpost
    cases post with
    | nil => simp
    | cons c cs => simp [List.takeWhile_cons, List.dropWhile_cons, hpost c rfl]
  | cons a as ih =>
    intro post hall hpost
    have ha : p a = true := hall a (by simp)
    have has : ∀ c ∈ as, p c = true := fun c hc => hall c (by simp [hc])
    obtain ⟨h1, h2⟩ := ih post has hpost
    simp [List.takeWhile_cons, List.dropWhile_cons, ha, h1, h2]

/-- C6 counterexample: the second rule rewrites "a \n \n b" (a run of
five whitespace characters containing two newlines) to "a b": the
newlines are removed, so the rule does not leave newline characters
unaffected, and the run it collapses is not a run of non-newline
whitespace. -/
theorem c6_counterexample :
    collapseWs "a \n \n b".toList = "a b".toList ∧
    '\n' ∈ "a \n \n b".toList ∧
    ¬ '\n' ∈ collapseWs "a \n \n b".toList := by
  decide

/-- C6 (amended): the second normalization rule collapses every
maximal run of five or more whitespace characters of any kind —
newlines included — to a single instance of the last whitespace
character of that run; in particular six consecutive spaces collapse
to one space (witness). -/
theorem c6_ws_collapse (run post : List Char)
    (h5 : 5 ≤ run.length)
    (hws : ∀ c ∈ run, isPyWs c = true)
    (hpost : ∀ c, post.head? = some c → isPyWs c = false) :
    collapseWs (run ++ post) = run.getLastD ' ' :: collapseWs post := by
  cases run with
  | nil => simp at h5
  | cons a as =>
    have ha : isPyWs a = true := hws a (by simp)
    have has : ∀ c ∈ as, isPyWs c = true := fun c hc => hws c (by simp [hc])
    obtain ⟨ht, hd⟩ := takeWhile_append_of_all as post has hpost
    rw [List.cons_append, collapseWs_cons, ht, hd]
    simp only [ha, if_true]
    rw [if_pos (by simpa using h5)]

/-- C6 witness: six consecutive spaces collapse to one space. -/
theorem c6_ws_collapse_witness :
    collapseWs (List.replicate 6 ' ') = [' '] := by
  have h := c6_ws_collapse (List.replicate 6 ' ') []
    (by decide) (by decide) (fun c hc => by simp at hc)
  simpa using h

/-! ## Claim C7 — the newline-collapse rule and the empty-chunk drop -/

/-- A run of `(\r)?\n` newline sequences: each `true` entry renders as
"\r\n", each `false` entry as "\n". -/
def nlRender (reps : List Bool) : List Char :=
  reps.foldr (fun b acc => (if b then ['\r', '\n'] else ['\n']) ++ acc) []

theorem nlRun_render : ∀ (reps : List Bool) (post : List Char),
    nlRun (nlRender reps ++ post) = (reps.length + (nlRun post).1, (nlRun post).2) := by
  intro reps
  induction reps with
  | nil => intro post; simp [nlRender]
  | cons b bs ih =>
    intro post
    cases b
    · have hr : nlRender (false :: bs) ++ post = '\n' :: (nlRender bs ++ post) := by
        simp [nlRender]
      rw [hr]
      simp only [nlRun, ih, List.length_cons, Prod.mk.injEq]
      exact ⟨by omega, trivial⟩
    · have hr : nlRender (true :: bs) ++ post =
          '\r' :: '\n' :: (nlRender bs ++ post) := by
        simp [nlRender]
      rw [hr]
      simp only [nlRun, ih, List.length_cons, Prod.mk.injEq]
      exact ⟨by omega, trivial⟩

/-- The call log of `processTenant` is either the lone batch delete,
or the batch delete followed by the write of the nonempty-content
chunks. -/
theorem processTenant_log
    (split : Option String → List Document → List Document)
    (clientOk : Bool) (addCount : Nat → Nat)
    (st : TenantStore) (documents : List Document) :
    (processTenant split clientOk addCount st documents).2.2
      = [Op.del (filterDocuments st.recs documents).2.2] ∨
    (processTenant split clientOk addCount st documents).2.2
      = [Op.del (filterDocuments st.recs documents).2.2,
         Op.add (((splitAll split
           (bucketByType (filterDocuments st.recs documents).1)).map
             normalizeDoc).filter (fun d => d.page_content ≠ ""))] := by
  unfold processTenant
  dsimp only
  split
  · left; rfl
  · split
    · left; rfl
    · split
      · right; rfl
      · left; rfl

/-- Any `Op.add` issued by `processTenant` carries only chunks with
nonempty content (the empty-content filter runs before the write). -/
theorem processTenant_add_nonempty
    (split : Option String → List Document → List Document)
    (clientOk : Bool) (addCount : Nat → Nat)
    (st : TenantStore) (documents : List Document) (docs : List Document)
    (h : Op.add docs ∈ (processTenant split clientOk addCount st documents).2.2) :
    ∀ d ∈ docs, d.page_content ≠ "" := by
  rcases processTenant_log split clientOk addCount st documents with hl | hl
  · rw [hl] at h
    simp at h
  · rw [hl] at h
    simp only [List.mem_cons, List.not_mem_nil, or_false] at h
    rcases h with h | h
    · exact absurd h (by simp)
    · injection h with hd
      intro d hdm
      rw [hd] at hdm
      have := List.of_mem_filter hdm
      simpa using this

/-- Any `Op.add` issued by the tenant loop carries only chunks with
nonempty content. -/
theorem goTenants_add_nonempty
    (split : Option String → List Document → List Document) :
    ∀ (dd : List (String × List Document)) (db : VectorDB) (acc : Bool)
      (t : String) (docs : List Document),
    (t, Op.add docs) ∈ (goTenants split db dd acc).2.2 →
    ∀ d ∈ docs, d.page_content ≠ "" := by
  intro dd
  induction dd with
  | nil => intro db acc t docs h; simp [goTenants] at h
  | cons hd rest ih =>
    intro db acc t docs h
    rw [goTenants] at h
    rcases hm : (processTenant split (db.clientOk hd.1) (db.addCount hd.1)
        (getTenant db hd.1) hd.2).2.1 with _ | ok
    all_goals
      simp only [hm] at h
    · simp only [List.mem_map] at h
      obtain ⟨o, ho, heq⟩ := h
      have : o = Op.add docs := congrArg Prod.snd heq
      subst this
      exact processTenant_add_nonempty _ _ _ _ _ _ ho
    · simp only [List.mem_append, List.mem_map] at h
      rcases h with ⟨o, ho, heq⟩ | h
      · have : o = Op.add docs := congrArg Prod.snd heq
        subst this
        exact processTenant_add_nonempty _ _ _ _ _ _ ho
      · exact ih _ _ _ _ h

/-- C7: (1) a run of three or more newline sequences (each newline
optionally preceded by a carriage return), followed by content that
does not start with a newline sequence, collapses to exactly two
newline characters; (2) "a\n\n\n\nb" normalizes to "a\n\nb"; (3) every
chunk list handed to the store write call by `_process_sources`
contains only chunks with nonempty content — chunks normalizing to the
empty string never reach it. -/
theorem c7_newline_collapse :
    (∀ (reps : List Bool) (post : List Char), 3 ≤ reps.length →
       nlRun post = (0, post) →
       collapseNl (nlRender reps ++ post) = '\n' :: '\n' :: collapseNl post)
    ∧ normContent "a\n\n\n\nb" = "a\n\nb"
    ∧ (∀ (decode : UploadFile → Option String)
         (split : Option String → List Document → List Document)
         (db : VectorDB) (sources : List UploadFile)
         (t : String) (docs : List Document),
       (t, Op.add docs) ∈ (processSources decode split db sources).2.2 →
       ∀ d ∈ docs, d.page_content ≠ "") := by
  refine ⟨?_, by decide, ?_⟩
  · intro reps post h3 hpost
    have hr := nlRun_render reps post
    rw [hpost] at hr
    simp only [Nat.add_zero] at hr
    cases hl : nlRender reps ++ post with
    | nil =>
      rw [hl] at hr
      have h0 : nlRun ([] : List Char) = (0, []) := rfl
      rw [h0] at hr
      have := congrArg Prod.fst hr
      simp at this
      omega
    | cons c cs =>
      rw [hl] at hr
      rw [collapseNl_cons, hr]
      simp [h3]
  · intro decode split db sources t docs h
    unfold processSources at h
    by_cases hdd : sourcesToDocuments decode sources = []
    · simp [hdd] at h
    · simp only [hdd, if_false] at h
      exact goTenants_add_nonempty split _ _ _ _ _ h

/-! ## Claims C2 and C5 — the reconciler `_filter_documents` -/

theorem upsert_keys (m : List (String × Option PyVal)) (k : String)
    (v : Option PyVal) :
    (upsert m k v).map (fun e => e.1) =
      if k ∈ m.map (fun e => e.1) then m.map (fun e => e.1)
      else m.map (fun e => e.1) ++ [k] := by
  induction m with
  | nil => simp [upsert]
  | cons e rest ih =>
    obtain ⟨k1, v1⟩ := e
    by_cases he : k1 = k
    · subst he
      simp [upsert]
    · have hne : ¬ k = k1 := fun h => he h.symm
      simp only [upsert, he, if_false, List.map_cons]
      rw [ih]
      by_cases hk : k ∈ rest.map (fun e => e.1)
      · simp [hk, hne]
      · simp [hk, hne]

theorem mem_upsert_keys (m : List (String × Option PyVal)) (k : String)
    (v : Option PyVal) (s : String) :
    s ∈ (upsert m k v).map (fun e => e.1) ↔
      s = k ∨ s ∈ m.map (fun e => e.1) := by
  rw [upsert_keys]
  by_cases hk : k ∈ m.map (fun e => e.1)
  · rw [if_pos hk]
    exact ⟨Or.inr, fun h => h.elim (fun hs => hs ▸ hk) id⟩
  · rw [if_neg hk]
    simp [List.mem_append, or_comm]

theorem upsert_keys_nodup (m : List (String × Option PyVal)) (k : String)
    (v : Option PyVal) (h : (m.map (fun e => e.1)).Nodup) :
    ((upsert m k v).map (fun e => e.1)).Nodup := by
  rw [upsert_keys]
  split
  · exact h
  · next hk => simp [List.nodup_append, h, hk]

theorem mem_keys_foldl_inputStep :
    ∀ (docs : List Document) (acc : List (String × Option PyVal)) (s : String),
    s ∈ ((docs.foldl inputStep acc).map (fun e => e.1)) ↔
      s ∈ acc.map (fun e => e.1) ∨ ∃ d ∈ docs, d.metadata.source = some s := by
  intro docs
  induction docs with
  | nil => simp
  | cons d rest ih =>
    intro acc s
    rw [List.foldl_cons]
    rw [ih]
    cases hd : d.metadata.source with
    | none =>
      simp only [inputStep, hd]
      constructor
      · rintro (h | h)
        · exact Or.inl h
        · exact Or.inr (by
            obtain ⟨d', hd', hs'⟩ := h
            exact ⟨d', by simp [hd'], hs'⟩)
      · rintro (h | ⟨d', hd', hs'⟩)
        · exact Or.inl h
        · rcases List.mem_cons.mp hd' with rfl | hd'
          · rw [hd] at hs'; cases hs'
          · exact Or.inr ⟨d', hd', hs'⟩
    | some s' =>
      simp only [inputStep, hd]
      rw [mem_upsert_keys]
      constructor
      · rintro ((rfl | h) | h)
        · exact Or.inr ⟨d, by simp, hd⟩
        · exact Or.inl h
        · exact Or.inr (by
            obtain ⟨d', hd', hs'⟩ := h
            exact ⟨d', by simp [hd'], hs'⟩)
      · rintro (h | ⟨d', hd', hs'⟩)
        · exact Or.inl (Or.inr h)
        · rcases List.mem_cons.mp hd' with rfl | hd'
          · rw [hd] at hs'
            injection hs' with hs'
            exact Or.inl (Or.inl hs'.symm)
          · exact Or.inr ⟨d', hd', hs'⟩

/-- A source path is a key of `input_sources` exactly when some
document carries it. -/
theorem mem_keys_buildInputSources (docs : List Document) (s : String) :
    s ∈ (buildInputSources docs).map (fun e => e.1) ↔
      ∃ d ∈ docs, d.metadata.source = some s := by
  unfold buildInputSources
  rw [mem_keys_foldl_inputStep]
  simp

theorem buildInputSources_keys_nodup (docs : List Document) :
    ((buildInputSources docs).map (fun e => e.1)).Nodup := by
  unfold buildInputSources
  suffices h : ∀ (ds : List Document) (acc : List (String × Option PyVal)),
      (acc.map (fun e => e.1)).Nodup →
      ((ds.foldl inputStep acc).map (fun e => e.1)).Nodup from
    h docs [] (by simp)
  intro ds
  induction ds with
  | nil => intro acc h; simpa using h
  | cons d rest ih =>
    intro acc h
    rw [List.foldl_cons]
    apply ih
    unfold inputStep
    cases hd : d.metadata.source with
    | none => exact h
    | some s' => exact upsert_keys_nodup acc s' d.metadata.modified h

/-- Membership in the `existing_objects` map. -/
theorem mem_existingOf (recs : List VRecord) (docs : List Document)
    (s : String) (rid : Nat) (em : Option PyVal) :
    (s, rid, em) ∈ existingOf recs docs ↔
      s ∈ (buildInputSources docs).map (fun e => e.1) ∧
      ∃ r, findBySource recs s = some r ∧ r.rid = rid ∧ r.meta.modified = em := by
  unfold existingOf getObjectsFromMetadata
  rw [List.mem_filterMap]
  constructor
  · rintro ⟨k, hk, hfk⟩
    rcases hfr : findBySource recs k with _ | r
    · rw [hfr] at hfk; cases hfk
    · rw [hfr] at hfk
      simp only [Option.map, Option.some.injEq, Prod.mk.injEq] at hfk
      obtain ⟨h1, h2, h3⟩ := hfk
      subst h1
      exact ⟨hk, r, hfr, h2, h3⟩
  · rintro ⟨hk, r, hfr, h2, h3⟩
    exact ⟨s, hk, by rw [hfr]; simp [h2, h3]⟩

theorem filterMap_keys_sublist {β : Type} (f : String → Option (String × β))
    (hf : ∀ k e, f k = some e → e.1 = k) :
    ∀ keys : List String, ((keys.filterMap f).map (fun e => e.1)).Sublist keys := by
  intro keys
  induction keys with
  | nil => simp
  | cons k ks ih =>
    rw [List.filterMap_cons]
    cases hfk : f k with
    | none => exact ih.cons k
    | some e =>
      rw [List.map_cons, hf k e hfk]
      exact ih.cons₂ k

theorem existingOf_keys_nodup (recs : List VRecord) (docs : List Document) :
    ((existingOf recs docs).map (fun e => e.1)).Nodup := by
  have hs : ((existingOf recs docs).map (fun e => e.1)).Sublist
      ((buildInputSources docs).map (fun e => e.1)) := by
    unfold existingOf getObjectsFromMetadata
    exact filterMap_keys_sublist
      (fun k => (findBySource recs k).map (fun r => (k, r.rid, r.meta.modified)))
      (fun k e hk => by
        dsimp only at hk
        rcases hfr : findBySource recs k with _ | r
        · rw [hfr] at hk; cases hk
        · rw [hfr] at hk
          simp only [Option.map, Option.some.injEq] at hk
          rw [hk.symm])
      ((buildInputSources docs).map (fun e => e.1))
  exact List.Sublist.nodup hs (buildInputSources_keys_nodup docs)

/-- Entries of the existing map are determined by their key. -/
theorem existingOf_unique (recs : List VRecord) (docs : List Document)
    {e1 e2 : String × Nat × Option PyVal}
    (h1 : e1 ∈ existingOf recs docs) (h2 : e2 ∈ existingOf recs docs)
    (h : e1.1 = e2.1) : e1 = e2 :=
  List.inj_on_of_nodup_map (existingOf_keys_nodup recs docs) h1 h2 h

/-- Membership in the `to_delete` dict. -/
theorem mem_toDeleteOf (recs : List VRecord) (docs : List Document)
    (s : String) (rid : Nat) :
    (s, rid) ∈ toDeleteOf recs docs ↔
      ∃ em, (s, rid, em) ∈ existingOf recs docs ∧
        to_int (pyGet (buildInputSources docs) s) > to_int em := by
  unfold toDeleteOf
  rw [List.mem_filterMap]
  constructor
  · rintro ⟨e, he, hcond⟩
    by_cases hc : to_int (pyGet (buildInputSources docs) e.1) > to_int e.2.2
    · rw [if_pos hc] at hcond
      injection hcond with hcond
      have h1 : e.1 = s := congrArg Prod.fst hcond
      have h2 : e.2.1 = rid := congrArg Prod.snd hcond
      refine ⟨e.2.2, ?_, by rw [h1] at hc; exact hc⟩
      have : e = (s, rid, e.2.2) := by
        obtain ⟨a, b, c⟩ := e
        simp_all
      rw [this] at he
      exact he
    · rw [if_neg hc] at hcond
      cases hcond
  · rintro ⟨em, hmem, hc⟩
    exact ⟨(s, rid, em), hmem, by simp [hc]⟩

/-- A record of `_filter_documents`' existing map really is a store
record with that id, source and modified stamp. -/
theorem existingOf_record (recs : List VRecord) (docs : List Document)
    {s : String} {rid : Nat} {em : Option PyVal}
    (h : (s, rid, em) ∈ existingOf recs docs) :
    ∃ r ∈ recs, r.rid = rid ∧ r.meta.source = some s ∧ r.meta.modified = em := by
  rw [mem_existingOf] at h
  obtain ⟨-, r, hf, hrid, hem⟩ := h
  refine ⟨r, List.mem_of_find?_eq_some hf, hrid, ?_, hem⟩
  have := List.find?_some hf
  simpa using this

/-- Membership in the `new_sources` set. -/
theorem mem_newSourcesOf (recs : List VRecord) (docs : List Document)
    (s : String) :
    s ∈ newSourcesOf recs docs ↔
      (s ∈ (buildInputSources docs).map (fun e => e.1) ∧
       ¬ s ∈ (existingOf recs docs).map (fun e => e.1)) ∨
      s ∈ (toDeleteOf recs docs).map (fun e => e.1) := by
  unfold newSourcesOf
  simp [List.mem_append, List.mem_filter]

/-- Membership in the survivor list, in terms of `new_sources`. -/
theorem mem_survivors (recs : List VRecord) (docs : List Document)
    (d : Document) :
    d ∈ (filterDocuments recs docs).1 ↔
      d ∈ docs ∧ ∃ s, d.metadata.source = some s ∧
        s ∈ newSourcesOf recs docs := by
  unfold filterDocuments
  simp only [List.mem_filter]
  refine and_congr_right fun _ => ?_
  cases hd : d.metadata.source with
  | none => simp [hd]
  | some s => simp [hd]

/-- `_filter_documents` reports as deleted exactly the marked ids. -/
theorem filterDocuments_deleted (recs : List VRecord) (docs : List Document) :
    (filterDocuments recs docs).2.2 = (toDeleteOf recs docs).map (fun e => e.2) :=
  rfl

/-- `_filter_documents` leaves exactly the records whose id was not
marked. -/
theorem filterDocuments_remaining (recs : List VRecord) (docs : List Document) :
    (filterDocuments recs docs).2.1 =
      recs.filter (fun r =>
        !decide (r.rid ∈ (toDeleteOf recs docs).map (fun e => e.2))) :=
  rfl

/-- The document refuting claim C2: it carries no source path. -/
def c2Doc : Document := ⟨"hello", ⟨none, none, none, none, none⟩⟩

/-- C2 counterexample: a document with no source path is dropped by
the reconciler (`None` is never a member of the `new_sources` string
set), although the claim says it passes through unfiltered. -/
theorem c2_counterexample :
    c2Doc.metadata.source = none ∧ (filterDocuments [] [c2Doc]).1 = [] := by
  decide

/-- C2 (amended): the survivor set consists exactly of the documents
that carry a source path and whose path is either absent from the
existing-records map or marked for deletion; a document with no source
path is excluded from the survivors (its `None` source is never a
member of the `new_sources` set), not passed through. -/
theorem c2_survivors (recs : List VRecord) (docs : List Document)
    (d : Document) :
    d ∈ (filterDocuments recs docs).1 ↔
      d ∈ docs ∧ ∃ s, d.metadata.source = some s ∧
        (¬ s ∈ (existingOf recs docs).map (fun e => e.1) ∨
         s ∈ (toDeleteOf recs docs).map (fun e => e.1)) := by
  rw [mem_survivors]
  constructor
  · rintro ⟨hd, s, hs, hn⟩
    rw [mem_newSourcesOf] at hn
    exact ⟨hd, s, hs, hn.elim (fun h => Or.inl h.2) Or.inr⟩
  · rintro ⟨hd, s, hs, hn⟩
    refine ⟨hd, s, hs, ?_⟩
    rw [mem_newSourcesOf]
    rcases hn with hn | hn
    · exact Or.inl ⟨(mem_keys_buildInputSources docs s).mpr ⟨d, hd, hs⟩, hn⟩
    · exact Or.inr hn

/-- C5: for an existing record matched by the store query, its id is
marked for deletion exactly when the incoming `modified` (coerced by
`to_int`) is strictly greater than the stored one; for an equal or
lesser incoming value the existing record is neither reported deleted
nor removed from the store, and every incoming document with that
source path is excluded from the survivors. -/
theorem c5_mark_for_deletion (recs : List VRecord) (docs : List Document)
    (s : String) (rid : Nat) (em : Option PyVal)
    (hnd : (recs.map (fun r => r.rid)).Nodup)
    (hmem : (s, rid, em) ∈ existingOf recs docs) :
    ((s, rid) ∈ toDeleteOf recs docs ↔
      to_int (pyGet (buildInputSources docs) s) > to_int em) ∧
    (¬ to_int (pyGet (buildInputSources docs) s) > to_int em →
      ¬ rid ∈ (filterDocuments recs docs).2.2 ∧
      (∀ r ∈ recs, r.rid = rid → r ∈ (filterDocuments recs docs).2.1) ∧
      (∀ d ∈ docs, d.metadata.source = some s →
        ¬ d ∈ (filterDocuments recs docs).1)) := by
  have hiff : (s, rid) ∈ toDeleteOf recs docs ↔
      to_int (pyGet (buildInputSources docs) s) > to_int em := by
    rw [mem_toDeleteOf]
    constructor
    · rintro ⟨em', hmem', hc⟩
      have heq := existingOf_unique recs docs hmem' hmem rfl
      have hem : em' = em := by simpa using congrArg (fun p => p.2.2) heq
      rwa [hem] at hc
    · intro hc
      exact ⟨em, hmem, hc⟩
  refine ⟨hiff, fun hc => ?_⟩
  have hrid : ¬ rid ∈ (toDeleteOf recs docs).map (fun e => e.2) := by
    intro hmem2
    rw [List.mem_map] at hmem2
    obtain ⟨⟨s', rid'⟩, htd, hr⟩ := hmem2
    dsimp only at hr
    subst hr
    rw [mem_toDeleteOf] at htd
    obtain ⟨em', hmem', hc'⟩ := htd
    obtain ⟨r', hmr', hid', hsrc', hem'⟩ := existingOf_record recs docs hmem'
    obtain ⟨r0, hmr0, hid0, hsrc0, hem0⟩ := existingOf_record recs docs hmem
    have hrr : r' = r0 :=
      List.inj_on_of_nodup_map hnd hmr' hmr0 (by rw [hid', hid0])
    subst hrr
    have hss : s' = s := by
      rw [hsrc'] at hsrc0
      injection hsrc0
    subst hss
    have heq := existingOf_unique recs docs hmem' hmem rfl
    have hem : em' = em := by simpa using congrArg (fun p => p.2.2) heq
    rw [hem] at hc'
    exact hc hc'
  refine ⟨by rw [filterDocuments_deleted]; exact hrid,
          fun r hr hrideq => ?_, fun d hd hds hdmem => ?_⟩
  · rw [filterDocuments_remaining]
    refine List.mem_filter.mpr ⟨hr, ?_⟩
    simp [hrideq, hrid]
  · rw [mem_survivors] at hdmem
    obtain ⟨-, s', hs', hns⟩ := hdmem
    rw [hds] at hs'
    injection hs' with hs'
    subst hs'
    rw [mem_newSourcesOf] at hns
    rcases hns with ⟨-, hnotex⟩ | htd
    · exact hnotex (List.mem_map.mpr ⟨(s, rid, em), hmem, rfl⟩)
    · rw [List.mem_map] at htd
      obtain ⟨⟨s2, rid2⟩, htd2, he⟩ := htd
      dsimp only at he
      subst he
      rw [mem_toDeleteOf] at htd2
      obtain ⟨em2, hmem2, hc2⟩ := htd2
      have heq := existingOf_unique recs docs hmem2 hmem rfl
      have hem2 : em2 = em := by simpa using congrArg (fun p => p.2.2) heq
      rw [hem2] at hc2
      exact hc hc2

/-- Store contents for the C5 witness: one record for source "a" with
modified 100 and id 7. -/
def c5Recs : List VRecord :=
  [⟨7, ⟨some "a", none, none, some (PyVal.int 100), none⟩, "old"⟩]

/-- Incoming documents for the C5 witness: source "a" with modified
150. -/
def c5Docs : List Document :=
  [⟨"c", ⟨some "a", none, none, some (PyVal.int 150), none⟩⟩]

/-- C5 witness: the marking criterion at a concrete store and incoming
batch. -/
theorem c5_mark_for_deletion_witness :
    ("a", 7) ∈ toDeleteOf c5Recs c5Docs ↔
      to_int (pyGet (buildInputSources c5Docs) "a") >
        to_int (some (PyVal.int 100)) :=
  (c5_mark_for_deletion c5Recs c5Docs "a" 7 (some (PyVal.int 100))
    (by decide) (by decide)).1

/-- Concrete source for the C7 witness. -/
def c7Source : UploadFile :=
  ⟨some "wf", some "wu", none, some "text/plain", some "1", none⟩

/-- C7 witness: the newline-collapse rule at a run of four bare
newlines followed by 'b', and the nonempty-content guarantee at a
concrete pipeline run that issues a write. -/
theorem c7_newline_collapse_witness :
    collapseNl (nlRender [false, false, false, false] ++ ['b'])
      = '\n' :: '\n' :: collapseNl ['b'] ∧
    (∀ d ∈ [Document.mk "hello"
        ⟨some "wf", none, some "text/plain", some (PyVal.str "1"), none⟩],
      d.page_content ≠ "") :=
  ⟨c7_newline_collapse.1 [false, false, false, false] ['b'] (by decide) (by decide),
   c7_newline_collapse.2.2 (fun _ => some "hello") (fun _ ds => ds)
     ⟨[], fun _ => true, fun _ n => n⟩ [c7Source] "wu"
     [Document.mk "hello"
       ⟨some "wf", none, some "text/plain", some (PyVal.str "1"), none⟩]
     (by decide)⟩

/-! ## Claim C1 — tenant independence of `_process_sources` -/

/-- Tenant A's upload for the C1 scenario. -/
def c1SourceA : UploadFile :=
  ⟨some "fa", some "A", none, some "text/plain", some "1", none⟩

/-- Tenant B's upload for the C1 scenario. -/
def c1SourceB : UploadFile :=
  ⟨some "fb", some "B", none, some "text/plain", some "1", none⟩

/-- A store whose client resolution fails for tenant A only. -/
def c1DB : VectorDB := ⟨[], fun t => t ≠ "A", fun _ n => n⟩

/-- A decoder that decodes every upload to "hello". -/
def c1Decode : UploadFile → Option String := fun _ => some "hello"

/-- A splitter that returns its input unsplit. -/
def c1Split : Option String → List Document → List Document := fun _ ds => ds

/-- C1 counterexample: with tenant A's client resolution returning
null and tenant B processed after A, `_process_sources` returns false
AND tenant B's documents are never written — whereas running B alone
does write them.  So a null-client failure does not leave subsequent
tenants unaffected. -/
theorem c1_counterexample :
    (processSources c1Decode c1Split c1DB [c1SourceA, c1SourceB]).1 = false ∧
    (getTenant (processSources c1Decode c1Split c1DB
      [c1SourceA, c1SourceB]).2.1 "B").recs = [] ∧
    (getTenant (processSources c1Decode c1Split c1DB
      [c1SourceB]).2.1 "B").recs ≠ [] := by
  decide

/-- The tenant loop as the spec describes it: every tenant is
processed; a tenant with a missing client contributes `false` and
processing continues with the remaining tenants. -/
def goTenantsAll (split : Option String → List Document → List Document) :
    VectorDB → List (String × List Document) →
    Bool × VectorDB × List (String × Op)
  | db, [] => (true, db, [])
  | db, (t, docs) :: rest =>
    let r := processTenant split (db.clientOk t) (db.addCount t)
      (getTenant db t) docs
    let res := goTenantsAll split (setTenant db t r.1) rest
    ((r.2.1.getD false) && res.1, res.2.1,
      r.2.2.map (fun o => (t, o)) ++ res.2.2)

/-- With a resolvable client, `processTenant` never takes the abort
path. -/
theorem processTenant_clientOk_some
    (split : Option String → List Document → List Document)
    (addCount : Nat → Nat) (st : TenantStore) (documents : List Document) :
    (processTenant split true addCount st documents).2.1 ≠ none := by
  unfold processTenant
  dsimp only
  split
  · simp
  · split
    · simp
    · simp

/-- When every grouped tenant's client resolves, the tenant loop never
aborts and agrees with the spec's all-tenants loop. -/
theorem goTenants_eq_all
    (split : Option String → List Document → List Document) :
    ∀ (dd : List (String × List Document)) (db : VectorDB) (acc : Bool),
    (∀ t ∈ dd.map (fun e => e.1), db.clientOk t = true) →
    goTenants split db dd acc =
      (acc && (goTenantsAll split db dd).1, (goTenantsAll split db dd).2.1,
        (goTenantsAll split db dd).2.2) := by
  intro dd
  induction dd with
  | nil =>
    intro db acc h
    simp [goTenants, goTenantsAll]
  | cons e rest ih =>
    intro db acc h
    obtain ⟨t, docs⟩ := e
    have hct : db.clientOk t = true := h t (by simp)
    rw [goTenants, goTenantsAll]
    dsimp only
    rw [hct]
    rcases hs : (processTenant split true (db.addCount t)
        (getTenant db t) docs).2.1 with _ | ok
    · exact absurd hs (processTenant_clientOk_some split (db.addCount t)
        (getTenant db t) docs)
    · have hrest : ∀ t' ∈ rest.map (fun e => e.1),
          (setTenant db t (processTenant split true (db.addCount t)
            (getTenant db t) docs).1).clientOk t' = true := by
        intro t' ht'
        exact h t' (by simp [ht'])
      dsimp only
      rw [ih _ _ hrest]
      simp [Bool.and_assoc]

/-- C1 (amended): the null-client path aborts the whole call — the
counterexample shows subsequent tenants are then skipped — but
whenever every grouped tenant's client resolves, `_process_sources`
attempts the pipeline of every tenant and per-tenant failures (such as
write-count mismatches) only degrade that tenant's contribution to the
AND-aggregated boolean, as in the spec's all-tenants loop. -/
theorem c1_all_tenants_attempted
    (decode : UploadFile → Option String)
    (split : Option String → List Document → List Document)
    (db : VectorDB) (sources : List UploadFile)
    (h : ∀ t ∈ (sourcesToDocuments decode sources).map (fun e => e.1),
      db.clientOk t = true) :
    processSources decode split db sources =
      goTenantsAll split db (sourcesToDocuments decode sources) := by
  unfold processSources
  by_cases hdd : sourcesToDocuments decode sources = []
  · rw [if_pos hdd, hdd]
    rfl
  · rw [if_neg hdd, goTenants_eq_all split _ db true h]
    simp

/-- A store where every client resolves but tenant A's writes return
no ids (a write-count mismatch). -/
def c1wDB : VectorDB :=
  ⟨[], fun _ => true, fun t n => if t = "A" then 0 else n⟩

/-- C1 witness: with tenant A failing its write-count check and tenant
B processed after it, the loop equals the spec's all-tenants loop, the
aggregate is false, and tenant B's documents are still written. -/
theorem c1_all_tenants_attempted_witness :
    processSources c1Decode c1Split c1wDB [c1SourceA, c1SourceB] =
      goTenantsAll c1Split c1wDB
        (sourcesToDocuments c1Decode [c1SourceA, c1SourceB]) ∧
    (processSources c1Decode c1Split c1wDB [c1SourceA, c1SourceB]).1 = false ∧
    (getTenant (processSources c1Decode c1Split c1wDB
      [c1SourceA, c1SourceB]).2.1 "B").recs ≠ [] :=
  ⟨c1_all_tenants_attempted c1Decode c1Split c1wDB [c1SourceA, c1SourceB]
      (by decide),
   by decide, by decide⟩

/-! ## Claim C4 — idempotent ingestion of an unchanged source -/

/-- The `Document` that `_sources_to_documents` builds from a source
and its decoded content. -/
def docOf (s : UploadFile) (content : String) : Document :=
  ⟨content, ⟨s.filename, s.title, s.type, s.modified.map PyVal.str, s.provider⟩⟩

/-- The split-normalize-filter chunk list `_process_sources` computes
for one tenant's survivors. -/
def keptOf (split : Option String → List Document → List Document)
    (docs : List Document) : List Document :=
  ((splitAll split (bucketByType docs)).map normalizeDoc).filter
    (fun d => d.page_content ≠ "")

theorem sourcesToDocuments_single (decode : UploadFile → Option String)
    (s : UploadFile) (u content : String)
    (hu : s.userId = some u) (hdec : decode s = some content)
    (hne : content ≠ "") :
    sourcesToDocuments decode [s] = [(u, [docOf s content])] := by
  unfold sourcesToDocuments docOf
  simp [hu, hdec, hne, dictAppend]

theorem buildInputSources_single (d : Document) (f : String)
    (hsrc : d.metadata.source = some f) :
    buildInputSources [d] = [(f, d.metadata.modified)] := by
  unfold buildInputSources inputStep
  simp [hsrc, upsert]

theorem bucketByType_single (d : Document) :
    bucketByType [d] = [(d.metadata.type, [d])] := by
  simp [bucketByType, dictAppend]

theorem splitAll_single (split : Option String → List Document → List Document)
    (t : Option String) (ds : List Document) :
    splitAll split [(t, ds)] = split t ds := by
  simp [splitAll]

theorem filterDocuments_new (recs : List VRecord) (d : Document) (f : String)
    (hsrc : d.metadata.source = some f)
    (hfind : findBySource recs f = none) :
    filterDocuments recs [d] = ([d], recs, []) := by
  have hbis := buildInputSources_single d f hsrc
  unfold filterDocuments newSourcesOf toDeleteOf existingOf getObjectsFromMetadata
  rw [hbis]
  simp [hfind, hsrc, List.filter_eq_self]

theorem filterDocuments_unchanged (recs : List VRecord) (d : Document)
    (f : String) (r : VRecord)
    (hsrc : d.metadata.source = some f)
    (hfind : findBySource recs f = some r)
    (hmod : r.meta.modified = d.metadata.modified) :
    filterDocuments recs [d] = ([], recs, []) := by
  have hbis := buildInputSources_single d f hsrc
  unfold filterDocuments newSourcesOf toDeleteOf existingOf getObjectsFromMetadata
  rw [hbis]
  simp [hfind, hsrc, hmod, pyGet, lookupVal, List.filter_eq_self]

theorem processTenant_new
    (split : Option String → List Document → List Document)
    (addc : Nat → Nat) (st : TenantStore) (d : Document) (f : String)
    (hsrc : d.metadata.source = some f)
    (hfind : findBySource st.recs f = none)
    (hkept : keptOf split [d] ≠ [])
    (hfull : addc (keptOf split [d]).length = (keptOf split [d]).length) :
    processTenant split true addc st [d] =
      (⟨st.recs ++ mkRecords st.nextId (keptOf split [d]),
        st.nextId + (keptOf split [d]).length⟩,
       some true,
       [Op.del [], Op.add (keptOf split [d])]) := by
  unfold keptOf at hkept hfull ⊢
  unfold processTenant
  rw [filterDocuments_new st.recs d f hsrc hfind]
  dsimp only
  rw [if_neg (by simp), if_neg hkept, if_pos rfl, hfull]
  simp

theorem processTenant_unchanged
    (split : Option String → List Document → List Document)
    (co : Bool) (addc : Nat → Nat) (st : TenantStore) (d : Document)
    (f : String) (r : VRecord)
    (hsrc : d.metadata.source = some f)
    (hfind : findBySource st.recs f = some r)
    (hmod : r.meta.modified = d.metadata.modified) :
    processTenant split co addc st [d] = (st, some true, [Op.del []]) := by
  unfold processTenant
  rw [filterDocuments_unchanged st.recs d f r hsrc hfind hmod]
  dsimp only
  rw [if_pos rfl]

theorem lookupVal_setStore_self :
    ∀ (l : List (String × TenantStore)) (t : String) (st : TenantStore),
    lookupVal (setStore l t st) t = some st := by
  intro l t st
  induction l with
  | nil => simp [setStore, lookupVal]
  | cons e rest ih =>
    obtain ⟨t', st'⟩ := e
    by_cases h : t' = t
    · subst h
      simp [setStore, lookupVal]
    · simp [setStore, lookupVal, h, ih]

theorem getTenant_setTenant_self (db : VectorDB) (t : String)
    (st : TenantStore) :
    getTenant (setTenant db t st) t = st := by
  unfold getTenant setTenant
  simp [lookupVal_setStore_self]

theorem setStore_lookup_self :
    ∀ (l : List (String × TenantStore)) (t : String) (st : TenantStore),
    lookupVal l t = some st → setStore l t st = l := by
  intro l t st
  induction l with
  | nil => intro h; cases h
  | cons e rest ih =>
    obtain ⟨t', st'⟩ := e
    intro h
    by_cases ht : t' = t
    · subst ht
      have h' : st' = st := by simpa [lookupVal] using h
      simp [setStore, h']
    · simp only [lookupVal, ht, if_false] at h
      simp [setStore, ht, ih h]

theorem mkRecords_ne_nil (i : Nat) (ds : List Document) (h : ds ≠ []) :
    mkRecords i ds ≠ [] := by
  cases ds with
  | nil => exact absurd rfl h
  | cons d rest => simp [mkRecords]

theorem mkRecords_meta :
    ∀ (i : Nat) (ds : List Document) (r : VRecord), r ∈ mkRecords i ds →
    ∃ d ∈ ds, r.meta = d.metadata ∧ r.content = d.page_content := by
  intro i ds
  induction ds generalizing i with
  | nil => intro r h; simp [mkRecords] at h
  | cons d rest ih =>
    intro r h
    rw [mkRecords] at h
    rcases List.mem_cons.mp h with rfl | h
    · exact ⟨d, by simp, rfl, rfl⟩
    · obtain ⟨d', hd', hm⟩ := ih (i + 1) r h
      exact ⟨d', by simp [hd'], hm⟩

theorem keptOf_single_meta
    (split : Option String → List Document → List Document) (d : Document)
    (hsplit : ∀ c ∈ split d.metadata.type [d], c.metadata = d.metadata) :
    ∀ c ∈ keptOf split [d], c.metadata = d.metadata := by
  intro c hc
  unfold keptOf at hc
  rw [bucketByType_single, splitAll_single] at hc
  have hc2 := List.mem_of_mem_filter hc
  rw [List.mem_map] at hc2
  obtain ⟨c0, hc0, rfl⟩ := hc2
  simpa [normalizeDoc] using hsplit c0 hc0

theorem findBySource_append_new (recs0 : List VRecord) (n0 : Nat)
    (kept : List Document) (f : String) (m : Option PyVal)
    (hfind : findBySource recs0 f = none)
    (hne : kept ≠ [])
    (hmeta : ∀ c ∈ kept, c.metadata.source = some f ∧ c.metadata.modified = m) :
    ∃ r, findBySource (recs0 ++ mkRecords n0 kept) f = some r ∧
      r.meta.modified = m := by
  cases kept with
  | nil => exact absurd rfl hne
  | cons c rest =>
    refine ⟨⟨n0, c.metadata, c.page_content⟩, ?_, (hmeta c (by simp)).2⟩
    unfold findBySource at hfind ⊢
    rw [List.find?_append, hfind]
    simp only [Option.none_or]
    rw [mkRecords]
    rw [List.find?_cons_of_pos]
    simp [(hmeta c (by simp)).1]

/-- C4: ingesting the same unchanged source twice in succession, under
the normal conditions (the source decodes to nonempty content, the
tenant's store holds no record for its path yet, the splitter's chunks
inherit the document's metadata, some chunk survives normalization,
the client resolves and the write returns a full id list): the first
call succeeds and appends one nonempty set of records, all carrying
the source path and its modified stamp, and these are exactly the
store's records for that path; the second call succeeds, leaves the
store unchanged, and issues only an empty batch delete — zero deletes
and zero inserts. -/
theorem c4_idempotent
    (decode : UploadFile → Option String)
    (split : Option String → List Document → List Document)
    (db : VectorDB) (s : UploadFile) (u f content : String)
    (hu : s.userId = some u)
    (hf : s.filename = some f)
    (hdec : decode s = some content)
    (hne : content ≠ "")
    (hclean : findBySource (getTenant db u).recs f = none)
    (hclient : db.clientOk u = true)
    (hfull : ∀ n, db.addCount u n = n)
    (hsplit : ∀ c ∈ split s.type [docOf s content],
      c.metadata = (docOf s content).metadata)
    (hkept : keptOf split [docOf s content] ≠ []) :
    (processSources decode split db [s]).1 = true ∧
    (processSources decode split
      (processSources decode split db [s]).2.1 [s]).1 = true ∧
    ((processSources decode split
      (processSources decode split db [s]).2.1 [s]).2.1).tenants
      = ((processSources decode split db [s]).2.1).tenants ∧
    (processSources decode split
      (processSources decode split db [s]).2.1 [s]).2.2 = [(u, Op.del [])] ∧
    ∃ newRecs, newRecs ≠ [] ∧
      (getTenant (processSources decode split db [s]).2.1 u).recs
        = (getTenant db u).recs ++ newRecs ∧
      (∀ r ∈ newRecs, r.meta.source = some f ∧
        r.meta.modified = s.modified.map PyVal.str) ∧
      (getTenant (processSources decode split db [s]).2.1 u).recs.filter
        (fun r => decide (r.meta.source = some f)) = newRecs := by
  have hsrc : (docOf s content).metadata.source = some f := by
    simp [docOf, hf]
  have hstd := sourcesToDocuments_single decode s u content hu hdec hne
  have hPT1 := processTenant_new split (db.addCount u) (getTenant db u)
    (docOf s content) f hsrc hclean hkept (hfull _)
  have h1 : processSources decode split db [s]
      = (true,
         setTenant db u
           ⟨(getTenant db u).recs ++ mkRecords (getTenant db u).nextId
              (keptOf split [docOf s content]),
            (getTenant db u).nextId + (keptOf split [docOf s content]).length⟩,
         [(u, Op.del []), (u, Op.add (keptOf split [docOf s content]))]) := by
    unfold processSources
    rw [hstd, if_neg (by simp), goTenants]
    dsimp only
    rw [hclient, hPT1]
    dsimp only
    rw [goTenants]
    simp
  have hget1 : getTenant (setTenant db u
      ⟨(getTenant db u).recs ++ mkRecords (getTenant db u).nextId
         (keptOf split [docOf s content]),
       (getTenant db u).nextId + (keptOf split [docOf s content]).length⟩) u
      = ⟨(getTenant db u).recs ++ mkRecords (getTenant db u).nextId
           (keptOf split [docOf s content]),
         (getTenant db u).nextId + (keptOf split [docOf s content]).length⟩ :=
    getTenant_setTenant_self db u _
  have hmeta : ∀ c ∈ keptOf split [docOf s content],
      c.metadata.source = some f ∧
      c.metadata.modified = s.modified.map PyVal.str := by
    intro c hc
    have hcm := keptOf_single_meta split (docOf s content) hsplit c hc
    constructor
    · rw [hcm]; exact hsrc
    · rw [hcm]; simp [docOf]
  obtain ⟨r, hfr, hrm⟩ := findBySource_append_new (getTenant db u).recs
    (getTenant db u).nextId (keptOf split [docOf s content]) f
    (s.modified.map PyVal.str) hclean hkept hmeta
  have hPT2 := processTenant_unchanged split
    ((setTenant db u
      ⟨(getTenant db u).recs ++ mkRecords (getTenant db u).nextId
         (keptOf split [docOf s content]),
       (getTenant db u).nextId + (keptOf split [docOf s content]).length⟩).clientOk u)
    ((setTenant db u
      ⟨(getTenant db u).recs ++ mkRecords (getTenant db u).nextId
         (keptOf split [docOf s content]),
       (getTenant db u).nextId + (keptOf split [docOf s content]).length⟩).addCount u)
    ⟨(getTenant db u).recs ++ mkRecords (getTenant db u).nextId
       (keptOf split [docOf s content]),
     (getTenant db u).nextId + (keptOf split [docOf s content]).length⟩
    (docOf s content) f r hsrc hfr hrm
  have h2 : processSources decode split
      (setTenant db u
        ⟨(getTenant db u).recs ++ mkRecords (getTenant db u).nextId
           (keptOf split [docOf s content]),
         (getTenant db u).nextId + (keptOf split [docOf s content]).length⟩) [s]
      = (true,
         setTenant (setTenant db u
           ⟨(getTenant db u).recs ++ mkRecords (getTenant db u).nextId
              (keptOf split [docOf s content]),
            (getTenant db u).nextId + (keptOf split [docOf s content]).length⟩) u
           ⟨(getTenant db u).recs ++ mkRecords (getTenant db u).nextId
              (keptOf split [docOf s content]),
            (getTenant db u).nextId + (keptOf split [docOf s content]).length⟩,
         [(u, Op.del [])]) := by
    unfold processSources
    rw [hstd, if_neg (by simp), goTenants]
    dsimp only
    rw [hget1, hPT2]
    dsimp only
    rw [goTenants]
    simp
  have hsetset : (setTenant (setTenant db u
      ⟨(getTenant db u).recs ++ mkRecords (getTenant db u).nextId
         (keptOf split [docOf s content]),
       (getTenant db u).nextId + (keptOf split [docOf s content]).length⟩) u
      ⟨(getTenant db u).recs ++ mkRecords (getTenant db u).nextId
         (keptOf split [docOf s content]),
       (getTenant db u).nextId + (keptOf split [docOf s content]).length⟩).tenants
      = (setTenant db u
          ⟨(getTenant db u).recs ++ mkRecords (getTenant db u).nextId
             (keptOf split [docOf s content]),
           (getTenant db u).nextId + (keptOf split [docOf s content]).length⟩).tenants := by
    unfold setTenant
    dsimp only
    exact setStore_lookup_self _ u _ (lookupVal_setStore_self db.tenants u _)
  rw [h1]
  dsimp only
  rw [h2]
  dsimp only
  refine ⟨rfl, rfl, hsetset, rfl, mkRecords (getTenant db u).nextId
    (keptOf split [docOf s content]), ?_, ?_, ?_, ?_⟩
  · exact mkRecords_ne_nil _ _ hkept
  · rw [hget1]
  · intro r2 hr2
    obtain ⟨c, hc, hcm, -⟩ := mkRecords_meta _ _ r2 hr2
    rw [hcm]
    exact hmeta c hc
  · rw [hget1]
    dsimp only
    rw [List.filter_append]
    have hnil : (getTenant db u).recs.filter
        (fun r => decide (r.meta.source = some f)) = [] := by
      rw [List.filter_eq_nil_iff]
      intro a ha
      have := List.find?_eq_none.mp hclean a ha
      simpa using this
    have hself : (mkRecords (getTenant db u).nextId
        (keptOf split [docOf s content])).filter
        (fun r => decide (r.meta.source = some f))
        = mkRecords (getTenant db u).nextId (keptOf split [docOf s content]) := by
      rw [List.filter_eq_self]
      intro a ha
      obtain ⟨c, hc, hcm, -⟩ := mkRecords_meta _ _ a ha
      simp [hcm, (hmeta c hc).1]
    rw [hnil, hself, List.nil_append]

/-- A fresh upload for the C4 witness. -/
def c4Source : UploadFile :=
  ⟨some "f.txt", some "alice", none, some "text/plain", some "5", none⟩

/-- An empty store with a working client for the C4 witness. -/
def c4DB : VectorDB := ⟨[], fun _ => true, fun _ n => n⟩

/-- A decoder decoding everything to "hello" for the C4 witness. -/
def c4Decode : UploadFile → Option String := fun _ => some "hello"

/-- The identity splitter for the C4 witness. -/
def c4Split : Option String → List Document → List Document := fun _ ds => ds

/-- C4 witness: at the concrete scenario, the second ingestion of the
unchanged source issues only the empty batch delete — no write op. -/
theorem c4_idempotent_witness :
    (processSources c4Decode c4Split
      (processSources c4Decode c4Split c4DB [c4Source]).2.1 [c4Source]).2.2
      = [("alice", Op.del [])] :=
  (c4_idempotent c4Decode c4Split c4DB c4Source "alice" "f.txt" "hello"
    rfl rfl rfl (by decide) (by decide) rfl (fun n => rfl)
    (by decide) (by decide)).2.2.2.1

end CCB
